import Mathlib

/-!
# Verification of the fast debt-slot table (`src/debt/fast.rs`)

A shallow embedding of the fast path of the debt registration table:
a fixed array of `DEBT_SLOT_CNT = 8` atomically mutable cells, a
thread-local round-robin cursor, the `get_debt` acquisition scan, and
the read-only iteration surface.

Machine integers (`usize`) are modelled as `Nat`; a cell's content is
its `usize` value, with the reserved sentinel `Debt.NONE` meaning
"free".  The sequential behaviour of `get_debt` is embedded as a pure
function on the list of cell values plus the thread-local offset; the
concurrent behaviour is embedded as an interleaved small-step
transition system in which each compare-and-exchange is one atomic
step.
-/

/-- `DEBT_SLOT_CNT` from `fast.rs`: the number of fast debt slots. -/
def DEBT_SLOT_CNT : Nat := 8

/-- Modelled from the spec: `Debt::NONE`, the reserved FREE sentinel of a
debt cell — "a reserved sentinel never equal to any real protected
address".  The `Debt` type itself lives outside the provided source
(only `fast.rs` is given); a cell is represented by its `usize` content
and the sentinel by the all-ones `usize` value. -/
def Debt.NONE : Nat := 2 ^ 64 - 1

/-- Result of one `get_debt` call: the claimed slot index (if any), the
table contents afterwards, and the thread-local `offset` afterwards. -/
structure GetDebtResult where
  claimed : Option Nat
  cells : List Nat
  offset : Nat
deriving Repr, DecidableEq

/-- The scan loop of `Slots::get_debt`: `for i in 0..len`, visit slot
`(i + offset) % len` and attempt one compare-and-exchange against
`Debt::NONE`; stop at the first success and return the claimed index.
The loop counter values are passed as the explicit list `is`
(instantiated with `List.range len`). -/
def get_debt.scan (cells : List Nat) (offset : Nat) : List Nat → Option Nat
  | [] => none
  | i :: is =>
    if cells.getD ((i + offset) % cells.length) 0 = Debt.NONE then
      some ((i + offset) % cells.length)
    else get_debt.scan cells offset is

/-- `Slots::get_debt`: rotate through the slots starting at the
thread-local `offset`; on the first successful compare-and-exchange
store `ptr` in that cell, set the local offset to the claimed index
plus one, and return the claimed cell; if all `len` attempts fail,
return `none` and change nothing. -/
def get_debt (cells : List Nat) (ptr : Nat) (offset : Nat) : GetDebtResult :=
  match get_debt.scan cells offset (List.range cells.length) with
  | some j => ⟨some j, cells.set j ptr, j + 1⟩
  | none => ⟨none, cells, offset⟩

/-- `IntoIterator for &Slots`: a read-only view of the cells, in index
order (`self.0.iter()`). -/
def Slots.iterate (cells : List Nat) : List Nat := cells

/-- The order in which `get_debt` visits slot indices, starting from a
thread-local offset: `(i + offset) % DEBT_SLOT_CNT` for `i in 0..N`. -/
def visitOrder (offset : Nat) : List Nat :=
  (List.range DEBT_SLOT_CNT).map (fun i => (i + offset) % DEBT_SLOT_CNT)

/-- `Debt::pay_all` / release surface: resetting a held cell back to
`Debt::NONE` (a single atomic store).  Only the effect on the table is
modelled. -/
def releaseCell (cells : List Nat) (idx : Nat) : List Nat :=
  cells.set idx Debt.NONE

/-- A sequence of `get_debt` calls by one thread: the claimed results,
the final table, and the final thread-local offset. -/
structure SeqResult where
  results : List (Option Nat)
  cells : List Nat
  offset : Nat
deriving Repr, DecidableEq

/-- Run `get_debt` once per pointer in `ptrs`, threading the table and
the thread-local offset. -/
def get_debt_seq (cells : List Nat) (offset : Nat) : List Nat → SeqResult
  | [] => ⟨[], cells, offset⟩
  | p :: ps =>
    let r := get_debt cells p offset
    let rest := get_debt_seq r.cells r.offset ps
    ⟨r.claimed :: rest.results, rest.cells, rest.offset⟩

/-- One acquire/release cycle: `get_debt`, then immediately release the
claimed cell (if any). -/
def cycleStep (cells : List Nat) (offset : Nat) (ptr : Nat) :
    Option Nat × List Nat × Nat :=
  let r := get_debt cells ptr offset
  match r.claimed with
  | some j => (some j, releaseCell r.cells j, r.offset)
  | none => (none, r.cells, r.offset)

/-- A sequence of acquire/release cycles by one thread: the list of
claimed indices, the final table, and the final offset. -/
def cycleSeq (cells : List Nat) (offset : Nat) : List Nat → List (Option Nat) × List Nat × Nat
  | [] => ([], cells, offset)
  | p :: ps =>
    let r := cycleStep cells offset p
    let rest := cycleSeq r.2.1 r.2.2 ps
    (r.1 :: rest.1, rest.2)

/-! ## Basic characterisation of the scan -/

theorem scan_eq_find (cells : List Nat) (offset : Nat) (is : List Nat) :
    get_debt.scan cells offset is =
      (is.map (fun i => (i + offset) % cells.length)).find?
        (fun j => cells.getD j 0 == Debt.NONE) := by
  induction is with
  | nil => rfl
  | cons i is ih =>
    by_cases h : cells.getD ((i + offset) % cells.length) 0 = Debt.NONE
    · rw [List.map_cons, List.find?_cons_of_pos _ (by simpa using h),
        get_debt.scan, if_pos h]
    · rw [List.map_cons, List.find?_cons_of_neg _ (by simpa using h),
        get_debt.scan, if_neg h, ih]

theorem range_eight : List.range 8 = [0, 1, 2, 3, 4, 5, 6, 7] := by decide

/-- Membership in the visit order: every slot index below `N` is
visited. -/
theorem mem_visitOrder (offset j : Nat) (hj : j < DEBT_SLOT_CNT) :
    j ∈ visitOrder offset := by
  refine List.mem_map.mpr ⟨(j + 8 - offset % 8) % 8, ?_, ?_⟩
  · simp only [List.mem_range, DEBT_SLOT_CNT]
    omega
  · simp only [DEBT_SLOT_CNT] at hj ⊢
    rw [Nat.mod_add_mod]
    omega

/-- The visit order has no duplicates: each slot is visited exactly
once. -/
theorem visitOrder_nodup (offset : Nat) : (visitOrder offset).Nodup := by
  refine List.Nodup.map_on ?_ (List.nodup_range 8)
  intro x hx y hy hxy
  rw [List.mem_range] at hx hy
  simp only [DEBT_SLOT_CNT] at hx hy hxy
  omega

theorem visitOrder_length (offset : Nat) : (visitOrder offset).length = 8 := by
  simp [visitOrder, DEBT_SLOT_CNT]

/-- Every visited index is in bounds. -/
theorem visitOrder_lt (offset : Nat) : ∀ j ∈ visitOrder offset, j < 8 := by
  intro j hj
  rcases List.mem_map.mp hj with ⟨i, _, rfl⟩
  exact Nat.mod_lt _ (by decide)

/-- `get_debt`'s claimed index is the first free index in the visit
order. -/
theorem get_debt_claimed_eq_find (cells : List Nat) (ptr offset : Nat)
    (hlen : cells.length = 8) :
    (get_debt cells ptr offset).claimed =
      (visitOrder offset).find? (fun j => cells.getD j 0 == Debt.NONE) := by
  unfold get_debt
  rw [scan_eq_find, hlen]
  have : (List.range 8).map (fun i => (i + offset) % 8) = visitOrder offset := by
    simp [visitOrder, DEBT_SLOT_CNT]
  rw [this]
  cases (visitOrder offset).find? (fun j => cells.getD j 0 == Debt.NONE) <;> rfl

/-- On success the table is updated at exactly the claimed index; on
failure it is unchanged. -/
theorem get_debt_cells_eq (cells : List Nat) (ptr offset : Nat) :
    (get_debt cells ptr offset).cells =
      match (get_debt cells ptr offset).claimed with
      | some j => cells.set j ptr
      | none => cells := by
  unfold get_debt
  cases get_debt.scan cells offset (List.range cells.length) <;> rfl

/-- On success the new offset is the claimed index plus one; on failure
it is unchanged. -/
theorem get_debt_offset_eq (cells : List Nat) (ptr offset : Nat) :
    (get_debt cells ptr offset).offset =
      match (get_debt cells ptr offset).claimed with
      | some j => j + 1
      | none => offset := by
  unfold get_debt
  cases get_debt.scan cells offset (List.range cells.length) <;> rfl

/-- A successfully claimed index was free and is in bounds. -/
theorem get_debt_claimed_spec (cells : List Nat) (ptr offset : Nat)
    (hlen : cells.length = 8) (j : Nat)
    (h : (get_debt cells ptr offset).claimed = some j) :
    j < 8 ∧ cells.getD j 0 = Debt.NONE := by
  rw [get_debt_claimed_eq_find cells ptr offset hlen] at h
  have hmem := List.find?_some h
  have hj := List.mem_of_find?_eq_some h
  exact ⟨visitOrder_lt offset j hj, by simpa using hmem⟩

/-- If some in-bounds cell is free, the scan finds one. -/
theorem get_debt_claimed_isSome (cells : List Nat) (ptr offset : Nat)
    (hlen : cells.length = 8) (j : Nat) (hj : j < 8)
    (hfree : cells.getD j 0 = Debt.NONE) :
    (get_debt cells ptr offset).claimed.isSome := by
  rw [get_debt_claimed_eq_find cells ptr offset hlen]
  rw [List.find?_isSome]
  exact ⟨j, mem_visitOrder offset j hj, by simpa using hfree⟩

/-- If every in-bounds cell is occupied, the scan fails. -/
theorem get_debt_claimed_none (cells : List Nat) (ptr offset : Nat)
    (hlen : cells.length = 8)
    (hocc : ∀ j, j < 8 → cells.getD j 0 ≠ Debt.NONE) :
    (get_debt cells ptr offset).claimed = none := by
  rw [get_debt_claimed_eq_find cells ptr offset hlen]
  rw [List.find?_eq_none]
  intro j hj
  simpa using hocc j (visitOrder_lt offset j hj)

theorem getD_set_self (l : List Nat) (j a : Nat) (h : j < l.length) :
    (l.set j a).getD j 0 = a := by
  induction l generalizing j with
  | nil => simp at h
  | cons x xs ih =>
    cases j with
    | zero => rfl
    | succ j => simpa [List.getD] using ih j (by simpa using h)

theorem getD_set_ne (l : List Nat) (j k a : Nat) (h : k ≠ j) :
    (l.set j a).getD k 0 = l.getD k 0 := by
  induction l generalizing j k with
  | nil => simp
  | cons x xs ih =>
    cases j with
    | zero =>
      cases k with
      | zero => exact absurd rfl h
      | succ k => rfl
    | succ j =>
      cases k with
      | zero => rfl
      | succ k => simpa [List.getD] using ih j k (fun hk => h (by omega))

/-! ## Claim C2: all-or-nothing effect -/

/-- C2: for every table state and non-sentinel address, `get_debt`
either fully succeeds — exactly one previously-FREE cell now holds the
given address and the returned handle refers to that cell — or returns
`none` and leaves every cell unchanged; in particular, when all 8 cells
are occupied it returns `none` and the table is unchanged. -/
theorem get_debt_all_or_nothing (cells : List Nat) (ptr offset : Nat)
    (hlen : cells.length = 8) (hptr : ptr ≠ Debt.NONE) :
    (∀ j, (get_debt cells ptr offset).claimed = some j →
      j < 8 ∧ cells.getD j 0 = Debt.NONE ∧
      (get_debt cells ptr offset).cells = cells.set j ptr ∧
      (get_debt cells ptr offset).cells.getD j 0 = ptr ∧
      ∀ k, k ≠ j → (get_debt cells ptr offset).cells.getD k 0 = cells.getD k 0) ∧
    ((get_debt cells ptr offset).claimed = none →
      (get_debt cells ptr offset).cells = cells) ∧
    ((∀ j, j < 8 → cells.getD j 0 ≠ Debt.NONE) →
      (get_debt cells ptr offset).claimed = none ∧
      (get_debt cells ptr offset).cells = cells) := by
  refine ⟨?_, ?_, ?_⟩
  · intro j hj
    obtain ⟨hjlt, hfree⟩ := get_debt_claimed_spec cells ptr offset hlen j hj
    have hcells := get_debt_cells_eq cells ptr offset
    rw [hj] at hcells
    refine ⟨hjlt, hfree, hcells, ?_, ?_⟩
    · rw [hcells]
      exact getD_set_self cells j ptr (by omega)
    · intro k hk
      rw [hcells]
      exact getD_set_ne cells j k ptr hk
  · intro hn
    have hcells := get_debt_cells_eq cells ptr offset
    rw [hn] at hcells
    exact hcells
  · intro hocc
    have hn := get_debt_claimed_none cells ptr offset hlen hocc
    have hcells := get_debt_cells_eq cells ptr offset
    rw [hn] at hcells
    exact ⟨hn, hcells⟩

theorem get_debt_all_or_nothing_witness :
    ([Debt.NONE, 3, Debt.NONE, 3, 3, 3, 3, 3] : List Nat).length = 8 ∧
    (7 : Nat) ≠ Debt.NONE ∧
    (get_debt [Debt.NONE, 3, Debt.NONE, 3, 3, 3, 3, 3] 7 1).claimed = some 2 ∧
    (get_debt [Debt.NONE, 3, Debt.NONE, 3, 3, 3, 3, 3] 7 1).cells =
      [Debt.NONE, 3, 7, 3, 3, 3, 3, 3] := by
  refine ⟨by decide, by decide, ?_⟩
  have h := get_debt_all_or_nothing [Debt.NONE, 3, Debt.NONE, 3, 3, 3, 3, 3] 7 1
    (by decide) (by decide)
  have hc : (get_debt [Debt.NONE, 3, Debt.NONE, 3, 3, 3, 3, 3] 7 1).claimed = some 2 := by
    decide
  obtain ⟨h1, -, -⟩ := h
  obtain ⟨-, -, hset, -, -⟩ := h1 2 hc
  exact ⟨hc, by rw [hset]; decide⟩

/-! ## Claim C3: bounded round-robin scan -/

/-- C3: for every cursor offset and table state, `get_debt` visits each
of the 8 slots exactly once, in round-robin order
`(offset + i) % 8` for `i in 0..8`, and claims the first visited slot
that holds FREE; the scan is bounded to 8 attempts (the visit list has
length 8) and always terminates. -/
theorem get_debt_round_robin (cells : List Nat) (ptr offset : Nat)
    (hlen : cells.length = 8) :
    (visitOrder offset).length = 8 ∧
    (visitOrder offset).Nodup ∧
    (∀ j, j < 8 → j ∈ visitOrder offset) ∧
    visitOrder offset = (List.range 8).map (fun i => (i + offset) % 8) ∧
    (get_debt cells ptr offset).claimed =
      (visitOrder offset).find? (fun j => cells.getD j 0 == Debt.NONE) := by
  refine ⟨visitOrder_length offset, visitOrder_nodup offset,
    fun j hj => mem_visitOrder offset j hj, rfl,
    get_debt_claimed_eq_find cells ptr offset hlen⟩

theorem get_debt_round_robin_witness :
    ([5, 5, Debt.NONE, 5, 5, 5, 5, Debt.NONE] : List Nat).length = 8 ∧
    (get_debt [5, 5, Debt.NONE, 5, 5, 5, 5, Debt.NONE] 9 6).claimed =
      (visitOrder 6).find?
        (fun j => ([5, 5, Debt.NONE, 5, 5, 5, 5, Debt.NONE] : List Nat).getD j 0
          == Debt.NONE) := by
  exact ⟨by decide,
    (get_debt_round_robin [5, 5, Debt.NONE, 5, 5, 5, 5, Debt.NONE] 9 6 (by decide)).2.2.2.2⟩

/-! ## Claim C4: cursor advance (the code stores `i + 1`, not
`(i + 1) % 8`) -/

/-- C4 counterexample: claiming slot 7 stores cursor value `8`, not
`(7 + 1) % 8 = 0`: with only slot 7 free and cursor 0, `get_debt`
claims slot 7 and sets the thread-local offset to 8. -/
theorem get_debt_cursor_counterexample :
    (get_debt [1, 1, 1, 1, 1, 1, 1, Debt.NONE] 2 0).claimed = some 7 ∧
    (get_debt [1, 1, 1, 1, 1, 1, 1, Debt.NONE] 2 0).offset = 8 ∧
    (7 + 1) % 8 = 0 ∧
    (get_debt [1, 1, 1, 1, 1, 1, 1, Debt.NONE] 2 0).offset ≠ (7 + 1) % 8 := by
  decide

theorem visitOrder_mod (offset : Nat) : visitOrder offset = visitOrder (offset % 8) := by
  unfold visitOrder
  refine List.map_congr_left ?_
  intro i _
  simp only [DEBT_SLOT_CNT]
  omega

/-- C4 (amended): whenever `get_debt` succeeds by claiming the slot at
index `j`, the thread-local cursor is updated to `j + 1` — not reduced
modulo 8, so it can be 8 — but `j + 1 ≡ (j + 1) % 8 (mod 8)` and the
cursor is only ever read modulo 8, so the next acquisition by the same
thread scans exactly as if the cursor were `(j + 1) % 8`: it starts
just past the slot it just took. -/
theorem get_debt_cursor_advance (cells : List Nat) (ptr offset j : Nat)
    (hlen : cells.length = 8)
    (h : (get_debt cells ptr offset).claimed = some j) :
    (get_debt cells ptr offset).offset = j + 1 ∧
    (get_debt cells ptr offset).offset % 8 = (j + 1) % 8 ∧
    visitOrder (get_debt cells ptr offset).offset = visitOrder ((j + 1) % 8) := by
  have hoff := get_debt_offset_eq cells ptr offset
  rw [h] at hoff
  refine ⟨hoff, by rw [hoff], ?_⟩
  rw [hoff]
  exact visitOrder_mod (j + 1)

theorem get_debt_cursor_advance_witness :
    ([1, 1, 1, 1, 1, 1, 1, Debt.NONE] : List Nat).length = 8 ∧
    (get_debt [1, 1, 1, 1, 1, 1, 1, Debt.NONE] 2 0).claimed = some 7 ∧
    (get_debt [1, 1, 1, 1, 1, 1, 1, Debt.NONE] 2 0).offset = 7 + 1 := by
  refine ⟨by decide, by decide, ?_⟩
  exact (get_debt_cursor_advance [1, 1, 1, 1, 1, 1, 1, Debt.NONE] 2 0 7
    (by decide) (by decide)).1

/-! ## Claim C9: cursor range invariant, no overflow, indices in
bounds -/

/-- C9: the thread-local cursor starts at 0 and `get_debt` keeps it in
`0..=8`; under that invariant the index arithmetic `i + offset` of the
scan stays far below `2 ^ 64` (no `usize` overflow) and the array index
`(i + offset) % len` is always in bounds, so `get_debt` never indexes
out of range. -/
theorem get_debt_offset_safe (cells : List Nat) (ptr offset : Nat)
    (hlen : cells.length = 8) (hoff : offset ≤ 8) :
    (get_debt cells ptr offset).offset ≤ 8 ∧
    (∀ i, i < 8 → i + offset < 2 ^ 64 ∧ (i + offset) % cells.length < cells.length) := by
  constructor
  · have h := get_debt_offset_eq cells ptr offset
    cases hc : (get_debt cells ptr offset).claimed with
    | none => rw [hc] at h; simp at h; omega
    | some j =>
      rw [hc] at h
      simp at h
      rw [h]
      exact Nat.succ_le_of_lt (get_debt_claimed_spec cells ptr offset hlen j hc).1
  · intro i hi
    constructor
    · have : (2 : Nat) ^ 64 = 18446744073709551616 := by norm_num
      omega
    · rw [hlen]
      exact Nat.mod_lt _ (by decide)

theorem get_debt_offset_safe_witness :
    ([9, 9, 9, 9, 9, 9, 9, 9] : List Nat).length = 8 ∧ (8 : Nat) ≤ 8 ∧
    (get_debt [9, 9, 9, 9, 9, 9, 9, 9] 3 8).offset ≤ 8 := by
  refine ⟨by decide, by decide, ?_⟩
  exact (get_debt_offset_safe [9, 9, 9, 9, 9, 9, 9, 9] 3 8 (by decide) (by decide)).1

/-! ## Claim C10: the cursor only matters modulo 8 -/

/-- C10: the claimed cell, the returned value and the resulting table
of `get_debt` depend on the thread-local offset only through its value
modulo 8, and the resulting offsets agree modulo 8 as well; hence a
stored offset of 8 behaves exactly like 0, and storing `j + 1` without
the modulo is observationally equivalent to storing `(j + 1) % 8`. -/
theorem get_debt_offset_mod_equiv (cells : List Nat) (ptr offset : Nat)
    (hlen : cells.length = 8) :
    (get_debt cells ptr offset).claimed = (get_debt cells ptr (offset % 8)).claimed ∧
    (get_debt cells ptr offset).cells = (get_debt cells ptr (offset % 8)).cells ∧
    (get_debt cells ptr offset).offset % 8 = (get_debt cells ptr (offset % 8)).offset % 8 := by
  have hclaim : (get_debt cells ptr offset).claimed =
      (get_debt cells ptr (offset % 8)).claimed := by
    rw [get_debt_claimed_eq_find cells ptr offset hlen,
      get_debt_claimed_eq_find cells ptr (offset % 8) hlen, visitOrder_mod]
  refine ⟨hclaim, ?_, ?_⟩
  · rw [get_debt_cells_eq cells ptr offset, get_debt_cells_eq cells ptr (offset % 8),
      hclaim]
  · have h1 := get_debt_offset_eq cells ptr offset
    have h2 := get_debt_offset_eq cells ptr (offset % 8)
    rw [hclaim] at h1
    cases hc : (get_debt cells ptr (offset % 8)).claimed with
    | none =>
      rw [hc] at h1 h2
      simp at h1 h2
      rw [h1, h2]
      exact (Nat.mod_mod_of_dvd offset dvd_rfl).symm
    | some j =>
      rw [hc] at h1 h2
      simp at h1 h2
      rw [h1, h2]

theorem get_debt_offset_mod_equiv_witness :
    ([Debt.NONE, 4, 4, 4, 4, 4, 4, 4] : List Nat).length = 8 ∧
    (get_debt [Debt.NONE, 4, 4, 4, 4, 4, 4, 4] 5 8).claimed =
      (get_debt [Debt.NONE, 4, 4, 4, 4, 4, 4, 4] 5 (8 % 8)).claimed := by
  exact ⟨by decide,
    (get_debt_offset_mod_equiv [Debt.NONE, 4, 4, 4, 4, 4, 4, 4] 5 8 (by decide)).1⟩

/-! ## Acquisitions from a free slot under the cursor -/

theorem getD_replicate_none (j : Nat) (hj : j < 8) :
    (List.replicate 8 Debt.NONE).getD j 0 = Debt.NONE := by
  interval_cases j <;> rfl

/-- When the slot right under the cursor is free, `get_debt` claims it
on the first attempt. -/
theorem get_debt_first_free (cells : List Nat) (ptr offset : Nat)
    (hlen : cells.length = 8)
    (hfree : cells.getD (offset % 8) 0 = Debt.NONE) :
    get_debt cells ptr offset =
      ⟨some (offset % 8), cells.set (offset % 8) ptr, offset % 8 + 1⟩ := by
  have h8 : List.range cells.length = 0 :: [1, 2, 3, 4, 5, 6, 7] := by
    rw [hlen]; decide
  unfold get_debt
  rw [h8, get_debt.scan, hlen, Nat.zero_add, if_pos hfree]

theorem set_NONE_replicate (j : Nat) (hj : j < 8) :
    (List.replicate 8 Debt.NONE).set j Debt.NONE = List.replicate 8 Debt.NONE := by
  interval_cases j <;> rfl

/-! ## Claim C5: eight sequential acquisitions fill the table -/

/-- C5: from one thread on an empty table, 8 sequential `get_debt`
calls with 8 distinct non-sentinel addresses and no releases all
succeed and return the 8 distinct cells `0, 1, ..., 7`, and a 9th call
returns `none`. -/
theorem get_debt_seq_fills_table (a1 a2 a3 a4 a5 a6 a7 a8 a9 : Nat)
    (h1 : a1 ≠ Debt.NONE) (h2 : a2 ≠ Debt.NONE) (h3 : a3 ≠ Debt.NONE)
    (h4 : a4 ≠ Debt.NONE) (h5 : a5 ≠ Debt.NONE) (h6 : a6 ≠ Debt.NONE)
    (h7 : a7 ≠ Debt.NONE) (h8 : a8 ≠ Debt.NONE)
    (hdist : ([a1, a2, a3, a4, a5, a6, a7, a8] : List Nat).Nodup) :
    (get_debt_seq (List.replicate 8 Debt.NONE) 0 [a1, a2, a3, a4, a5, a6, a7, a8]).results
        = [some 0, some 1, some 2, some 3, some 4, some 5, some 6, some 7] ∧
    ([some 0, some 1, some 2, some 3, some 4, some 5, some 6, some 7] :
        List (Option Nat)).Nodup ∧
    (get_debt (get_debt_seq (List.replicate 8 Debt.NONE) 0
          [a1, a2, a3, a4, a5, a6, a7, a8]).cells a9
        (get_debt_seq (List.replicate 8 Debt.NONE) 0
          [a1, a2, a3, a4, a5, a6, a7, a8]).offset).claimed = none := by
  have s1 : get_debt [Debt.NONE, Debt.NONE, Debt.NONE, Debt.NONE, Debt.NONE,
      Debt.NONE, Debt.NONE, Debt.NONE] a1 0 =
      ⟨some 0, [a1, Debt.NONE, Debt.NONE, Debt.NONE, Debt.NONE, Debt.NONE,
        Debt.NONE, Debt.NONE], 1⟩ := by
    simpa using get_debt_first_free [Debt.NONE, Debt.NONE, Debt.NONE, Debt.NONE, Debt.NONE, Debt.NONE, Debt.NONE, Debt.NONE] a1 0 (by simp) rfl
  have s2 : get_debt [a1, Debt.NONE, Debt.NONE, Debt.NONE, Debt.NONE, Debt.NONE,
      Debt.NONE, Debt.NONE] a2 1 =
      ⟨some 1, [a1, a2, Debt.NONE, Debt.NONE, Debt.NONE, Debt.NONE, Debt.NONE,
        Debt.NONE], 2⟩ := by
    simpa using get_debt_first_free [a1, Debt.NONE, Debt.NONE, Debt.NONE, Debt.NONE, Debt.NONE, Debt.NONE, Debt.NONE] a2 1 (by simp) rfl
  have s3 : get_debt [a1, a2, Debt.NONE, Debt.NONE, Debt.NONE, Debt.NONE,
      Debt.NONE, Debt.NONE] a3 2 =
      ⟨some 2, [a1, a2, a3, Debt.NONE, Debt.NONE, Debt.NONE, Debt.NONE,
        Debt.NONE], 3⟩ := by
    simpa using get_debt_first_free [a1, a2, Debt.NONE, Debt.NONE, Debt.NONE, Debt.NONE, Debt.NONE, Debt.NONE] a3 2 (by simp) rfl
  have s4 : get_debt [a1, a2, a3, Debt.NONE, Debt.NONE, Debt.NONE, Debt.NONE,
      Debt.NONE] a4 3 =
      ⟨some 3, [a1, a2, a3, a4, Debt.NONE, Debt.NONE, Debt.NONE, Debt.NONE], 4⟩ := by
    simpa using get_debt_first_free [a1, a2, a3, Debt.NONE, Debt.NONE, Debt.NONE, Debt.NONE, Debt.NONE] a4 3 (by simp) rfl
  have s5 : get_debt [a1, a2, a3, a4, Debt.NONE, Debt.NONE, Debt.NONE,
      Debt.NONE] a5 4 =
      ⟨some 4, [a1, a2, a3, a4, a5, Debt.NONE, Debt.NONE, Debt.NONE], 5⟩ := by
    simpa using get_debt_first_free [a1, a2, a3, a4, Debt.NONE, Debt.NONE, Debt.NONE, Debt.NONE] a5 4 (by simp) rfl
  have s6 : get_debt [a1, a2, a3, a4, a5, Debt.NONE, Debt.NONE, Debt.NONE] a6 5 =
      ⟨some 5, [a1, a2, a3, a4, a5, a6, Debt.NONE, Debt.NONE], 6⟩ := by
    simpa using get_debt_first_free [a1, a2, a3, a4, a5, Debt.NONE, Debt.NONE, Debt.NONE] a6 5 (by simp) rfl
  have s7 : get_debt [a1, a2, a3, a4, a5, a6, Debt.NONE, Debt.NONE] a7 6 =
      ⟨some 6, [a1, a2, a3, a4, a5, a6, a7, Debt.NONE], 7⟩ := by
    simpa using get_debt_first_free [a1, a2, a3, a4, a5, a6, Debt.NONE, Debt.NONE] a7 6 (by simp) rfl
  have s8 : get_debt [a1, a2, a3, a4, a5, a6, a7, Debt.NONE] a8 7 =
      ⟨some 7, [a1, a2, a3, a4, a5, a6, a7, a8], 8⟩ := by
    simpa using get_debt_first_free [a1, a2, a3, a4, a5, a6, a7, Debt.NONE] a8 7 (by simp) rfl
  have hrep : List.replicate 8 Debt.NONE = [Debt.NONE, Debt.NONE, Debt.NONE,
      Debt.NONE, Debt.NONE, Debt.NONE, Debt.NONE, Debt.NONE] := rfl
  have hseq : get_debt_seq (List.replicate 8 Debt.NONE) 0
      [a1, a2, a3, a4, a5, a6, a7, a8] =
      ⟨[some 0, some 1, some 2, some 3, some 4, some 5, some 6, some 7],
        [a1, a2, a3, a4, a5, a6, a7, a8], 8⟩ := by
    rw [hrep]
    simp only [get_debt_seq, s1, s2, s3, s4, s5, s6, s7, s8]
  refine ⟨by rw [hseq], by decide, ?_⟩
  rw [hseq]
  refine get_debt_claimed_none _ a9 8 (by simp) ?_
  intro j hj
  interval_cases j <;> simpa using by assumption

theorem get_debt_seq_fills_table_witness :
    (get_debt_seq (List.replicate 8 Debt.NONE) 0
        [11, 12, 13, 14, 15, 16, 17, 18]).results
      = [some 0, some 1, some 2, some 3, some 4, some 5, some 6, some 7] ∧
    (get_debt (get_debt_seq (List.replicate 8 Debt.NONE) 0
          [11, 12, 13, 14, 15, 16, 17, 18]).cells 19
        (get_debt_seq (List.replicate 8 Debt.NONE) 0
          [11, 12, 13, 14, 15, 16, 17, 18]).offset).claimed = none := by
  have h := get_debt_seq_fills_table 11 12 13 14 15 16 17 18 19
    (by decide) (by decide) (by decide) (by decide) (by decide) (by decide)
    (by decide) (by decide) (by decide)
  exact ⟨h.1, h.2.2⟩

/-! ## Claim C6: rotation avoids immediate reuse of a just-freed cell
(the cursor itself is stored as `i0 + 1`, not `(i0 + 1) % 8`) -/

/-- C6 counterexample: with the thread-local cursor at 7 and an empty
table, acquiring `0x1000` claims cell `i0 = 7` but the cursor advances
to `8`, not `(7 + 1) % 8 = 0`. -/
theorem rotation_cursor_counterexample :
    (get_debt (List.replicate 8 Debt.NONE) 4096 7).claimed = some 7 ∧
    (get_debt (List.replicate 8 Debt.NONE) 4096 7).offset = 8 ∧
    (get_debt (List.replicate 8 Debt.NONE) 4096 7).offset ≠ (7 + 1) % 8 := by
  decide

/-- C6 (amended): on an empty table with any thread-local cursor value,
acquiring `0x1000` claims cell `i0 = cursor % 8` and advances the
cursor to `i0 + 1` (which is congruent to `(i0 + 1) % 8`; the stored
value is not reduced modulo 8); after releasing cell `i0`, acquiring
`0x2000` claims cell `(i0 + 1) % 8`, which differs from `i0` —
rotation avoids immediate reuse of the just-freed cell. -/
theorem rotation_avoids_reuse (offset : Nat) :
    (get_debt (List.replicate 8 Debt.NONE) 4096 offset).claimed
      = some (offset % 8) ∧
    (get_debt (List.replicate 8 Debt.NONE) 4096 offset).offset
      = offset % 8 + 1 ∧
    (get_debt (List.replicate 8 Debt.NONE) 4096 offset).offset % 8
      = (offset % 8 + 1) % 8 ∧
    (get_debt
        (releaseCell (get_debt (List.replicate 8 Debt.NONE) 4096 offset).cells
          (offset % 8))
        8192
        (get_debt (List.replicate 8 Debt.NONE) 4096 offset).offset).claimed
      = some ((offset % 8 + 1) % 8) ∧
    (offset % 8 + 1) % 8 ≠ offset % 8 := by
  have hmod : offset % 8 < 8 := Nat.mod_lt _ (by decide)
  have h1 := get_debt_first_free (List.replicate 8 Debt.NONE) 4096 offset
    (by simp) (getD_replicate_none _ hmod)
  rw [h1]
  have hrel : releaseCell ((List.replicate 8 Debt.NONE).set (offset % 8) 4096)
      (offset % 8) = List.replicate 8 Debt.NONE := by
    unfold releaseCell
    rw [List.set_set]
    exact set_NONE_replicate _ hmod
  have h2 := get_debt_first_free (List.replicate 8 Debt.NONE) 8192 (offset % 8 + 1)
    (by simp) (getD_replicate_none _ (Nat.mod_lt _ (by decide)))
  refine ⟨rfl, rfl, rfl, ?_, by omega⟩
  show (get_debt (releaseCell ((List.replicate 8 Debt.NONE).set (offset % 8) 4096)
      (offset % 8)) 8192 (offset % 8 + 1)).claimed = some ((offset % 8 + 1) % 8)
  rw [hrel, h2]

/-! ## Claim C7: round-robin fairness over acquire/release cycles -/

/-- One acquire/release cycle on an empty table claims the cell under
the cursor and leaves the table empty again, with the cursor one past
the claimed cell. -/
theorem cycleStep_empty (offset ptr : Nat) :
    cycleStep (List.replicate 8 Debt.NONE) offset ptr =
      (some (offset % 8), List.replicate 8 Debt.NONE, offset % 8 + 1) := by
  have hmod : offset % 8 < 8 := Nat.mod_lt _ (by decide)
  unfold cycleStep
  rw [get_debt_first_free (List.replicate 8 Debt.NONE) ptr offset (by simp)
    (getD_replicate_none _ hmod)]
  simp only [releaseCell, List.set_set]
  rw [set_NONE_replicate _ hmod]

/-- The claimed cells over a run of acquire/release cycles on an empty
table follow the cursor round-robin. -/
theorem cycleSeq_empty (ptrs : List Nat) (offset : Nat) :
    (cycleSeq (List.replicate 8 Debt.NONE) offset ptrs).1 =
      (List.range ptrs.length).map (fun k => some ((offset + k) % 8)) := by
  induction ptrs generalizing offset with
  | nil => rfl
  | cons p ps ih =>
    simp only [cycleSeq, cycleStep_empty]
    rw [ih (offset % 8 + 1)]
    rw [List.length_cons, List.range_succ_eq_map, List.map_cons, List.map_map]
    refine congrArg₂ _ (by simp) ?_
    refine List.map_congr_left ?_
    intro k _
    simp only [Function.comp_apply, Option.some.injEq]
    omega

/-- C7: for one thread performing 8 consecutive acquire/release cycles
starting from an empty table with no contention, the 8 claimed cells
are pairwise distinct and cover all 8 cells — each cell is used exactly
once before any cell is used a second time. -/
theorem cycle_fairness (ptrs : List Nat) (offset : Nat) (hlen : ptrs.length = 8) :
    (cycleSeq (List.replicate 8 Debt.NONE) offset ptrs).1 =
      (List.range 8).map (fun k => some ((offset + k) % 8)) ∧
    (cycleSeq (List.replicate 8 Debt.NONE) offset ptrs).1.Nodup ∧
    (∀ j, j < 8 → some j ∈ (cycleSeq (List.replicate 8 Debt.NONE) offset ptrs).1) ∧
    (cycleSeq (List.replicate 8 Debt.NONE) offset ptrs).1.length = 8 := by
  have h := cycleSeq_empty ptrs offset
  rw [hlen] at h
  refine ⟨h, ?_, ?_, by rw [h]; simp⟩
  · rw [h]
    refine List.Nodup.map_on ?_ (List.nodup_range 8)
    intro x hx y hy hxy
    rw [List.mem_range] at hx hy
    rw [Option.some.injEq] at hxy
    omega
  · intro j hj
    rw [h]
    refine List.mem_map.mpr ⟨(j + 8 - offset % 8) % 8, ?_, ?_⟩
    · rw [List.mem_range]
      omega
    · rw [Option.some.injEq]
      conv_lhs => rw [Nat.add_mod, Nat.mod_mod_of_dvd _ dvd_rfl, ← Nat.add_mod]
      omega

theorem cycle_fairness_witness :
    ([21, 22, 23, 24, 25, 26, 27, 28] : List Nat).length = 8 ∧
    (cycleSeq (List.replicate 8 Debt.NONE) 3 [21, 22, 23, 24, 25, 26, 27, 28]).1 =
      (List.range 8).map (fun k => some ((3 + k) % 8)) ∧
    (cycleSeq (List.replicate 8 Debt.NONE) 3 [21, 22, 23, 24, 25, 26, 27, 28]).1.Nodup := by
  have h := cycle_fairness [21, 22, 23, 24, 25, 26, 27, 28] 3 (by decide)
  exact ⟨by decide, h.1, h.2.1⟩

/-! ## Claim C8: iteration surface and occupancy accounting -/

theorem countP_not_eq (l : List Nat) (p : Nat → Bool) :
    l.countP (fun a => !p a) + l.countP p = l.length := by
  induction l with
  | nil => rfl
  | cons a l ih => by_cases h : p a <;> simp [List.countP_cons, h] <;> omega

/-- Writing a non-sentinel value into a free cell decreases the number
of free cells by exactly one. -/
theorem freeCount_set (l : List Nat) (j ptr : Nat) (hj : j < l.length)
    (hfree : l.getD j 0 = Debt.NONE) (hptr : ptr ≠ Debt.NONE) :
    (l.set j ptr).countP (fun v => v == Debt.NONE) + 1 =
      l.countP (fun v => v == Debt.NONE) := by
  induction l generalizing j with
  | nil => simp at hj
  | cons a l ih =>
    cases j with
    | zero =>
      have ha : a = Debt.NONE := by simpa [List.getD] using hfree
      simp [List.countP_cons, ha, hptr]
    | succ j =>
      have hfree' : l.getD j 0 = Debt.NONE := by simpa [List.getD] using hfree
      have := ih j (by simpa using hj) hfree'
      simp only [List.set_cons_succ, List.countP_cons]
      omega

theorem exists_free_index (l : List Nat)
    (h : 0 < l.countP (fun v => v == Debt.NONE)) :
    ∃ j, j < l.length ∧ l.getD j 0 = Debt.NONE := by
  obtain ⟨a, ha, hpa⟩ := List.countP_pos_iff.mp h
  obtain ⟨j, hj, rfl⟩ := List.mem_iff_getElem.mp ha
  refine ⟨j, hj, ?_⟩
  rw [List.getD_eq_getElem?_getD, List.getElem?_eq_getElem hj]
  simpa using hpa

theorem get_debt_seq_cons_results (cells : List Nat) (offset p : Nat) (ps : List Nat) :
    (get_debt_seq cells offset (p :: ps)).results =
      (get_debt cells p offset).claimed ::
        (get_debt_seq (get_debt cells p offset).cells
          (get_debt cells p offset).offset ps).results := rfl

theorem get_debt_seq_cons_cells (cells : List Nat) (offset p : Nat) (ps : List Nat) :
    (get_debt_seq cells offset (p :: ps)).cells =
      (get_debt_seq (get_debt cells p offset).cells
        (get_debt cells p offset).offset ps).cells := rfl

/-- As long as free cells remain, every `get_debt` in a sequence
succeeds, and each success occupies exactly one more cell. -/
theorem get_debt_seq_success (ptrs : List Nat) :
    ∀ cells offset, cells.length = 8 → (∀ p ∈ ptrs, p ≠ Debt.NONE) →
    ptrs.length ≤ cells.countP (fun v => v == Debt.NONE) →
    (∀ o ∈ (get_debt_seq cells offset ptrs).results, o.isSome) ∧
    (get_debt_seq cells offset ptrs).cells.countP (fun v => v == Debt.NONE)
        + ptrs.length = cells.countP (fun v => v == Debt.NONE) ∧
    (get_debt_seq cells offset ptrs).cells.length = 8 := by
  induction ptrs with
  | nil =>
    intro cells offset hlen _ _
    exact ⟨by simp [get_debt_seq], by simp [get_debt_seq], by simp [get_debt_seq, hlen]⟩
  | cons p ps ih =>
    intro cells offset hlen hp hcap
    simp only [List.length_cons] at hcap
    have hfree0 : 0 < cells.countP (fun v => v == Debt.NONE) := by omega
    obtain ⟨j0, hj0, hfree⟩ := exists_free_index cells hfree0
    have hsome : (get_debt cells p offset).claimed.isSome :=
      get_debt_claimed_isSome cells p offset hlen j0 (by omega) hfree
    obtain ⟨j, hj⟩ := Option.isSome_iff_exists.mp hsome
    have hspec := get_debt_claimed_spec cells p offset hlen j hj
    have hcells := get_debt_cells_eq cells p offset
    rw [hj] at hcells
    simp only at hcells
    have hjlt : j < cells.length := by omega
    have hcount := freeCount_set cells j p hjlt hspec.2
      (hp p (List.mem_cons_self p ps))
    have hplen : (get_debt cells p offset).cells.length = 8 := by
      rw [hcells, List.length_set, hlen]
    have hps : ∀ q ∈ ps, q ≠ Debt.NONE := fun q hq => hp q (List.mem_cons_of_mem p hq)
    have hcap' : ps.length ≤
        (get_debt cells p offset).cells.countP (fun v => v == Debt.NONE) := by
      rw [hcells]
      omega
    obtain ⟨ihres, ihcount, ihlen⟩ :=
      ih (get_debt cells p offset).cells (get_debt cells p offset).offset hplen hps hcap'
    refine ⟨?_, ?_, ?_⟩
    · intro o ho
      rw [get_debt_seq_cons_results] at ho
      rcases List.mem_cons.mp ho with rfl | hmem
      · rw [hj]; rfl
      · exact ihres o hmem
    · rw [get_debt_seq_cons_cells]
      rw [hcells] at ihcount ⊢
      simp only [List.length_cons]
      omega
    · rw [get_debt_seq_cons_cells]
      exact ihlen

/-- C8: `iterate` yields exactly the table's 8 cells, read-only and in
index order (it is the identity view of the cell list); after `K`
successful, unreleased acquisitions from an empty table with no
contention it yields exactly `K` non-free cells and `8 - K` free
cells. -/
theorem iterate_occupancy (ptrs : List Nat) (offset : Nat)
    (hp : ∀ p ∈ ptrs, p ≠ Debt.NONE) (hK : ptrs.length ≤ 8) :
    (∀ cells : List Nat, Slots.iterate cells = cells) ∧
    (∀ o ∈ (get_debt_seq (List.replicate 8 Debt.NONE) offset ptrs).results,
      o.isSome) ∧
    (Slots.iterate
        (get_debt_seq (List.replicate 8 Debt.NONE) offset ptrs).cells).length = 8 ∧
    (Slots.iterate
        (get_debt_seq (List.replicate 8 Debt.NONE) offset ptrs).cells).countP
        (fun v => v == Debt.NONE) = 8 - ptrs.length ∧
    (Slots.iterate
        (get_debt_seq (List.replicate 8 Debt.NONE) offset ptrs).cells).countP
        (fun v => !(v == Debt.NONE)) = ptrs.length := by
  have hrepl : (List.replicate 8 Debt.NONE).countP (fun v => v == Debt.NONE) = 8 := by
    decide
  obtain ⟨hres, hcount, hlen8⟩ := get_debt_seq_success ptrs
    (List.replicate 8 Debt.NONE) offset (by simp) hp (by rw [hrepl]; exact hK)
  have hnot := countP_not_eq
    (get_debt_seq (List.replicate 8 Debt.NONE) offset ptrs).cells
    (fun v => v == Debt.NONE)
  rw [hrepl] at hcount
  refine ⟨fun _ => rfl, hres, hlen8, ?_, ?_⟩ <;>
    simp only [Slots.iterate] <;> omega

theorem iterate_occupancy_witness :
    (∀ p ∈ ([31, 32, 33] : List Nat), p ≠ Debt.NONE) ∧
    (Slots.iterate
        (get_debt_seq (List.replicate 8 Debt.NONE) 5 [31, 32, 33]).cells).countP
      (fun v => v == Debt.NONE) = 5 := by
  refine ⟨by decide, ?_⟩
  have h := iterate_occupancy [31, 32, 33] 5 (by decide) (by decide)
  simpa using h.2.2.2.1

theorem rotation_avoids_reuse_witness :
    (get_debt (List.replicate 8 Debt.NONE) 4096 2).claimed = some 2 ∧
    (get_debt
        (releaseCell (get_debt (List.replicate 8 Debt.NONE) 4096 2).cells 2) 8192
        (get_debt (List.replicate 8 Debt.NONE) 4096 2).offset).claimed = some 3 := by
  have h := rotation_avoids_reuse 2
  exact ⟨by simpa using h.1, by simpa using h.2.2.2.1⟩

/-! ## Claim C1: mutual exclusion under concurrent interleaving

`get_debt` is embedded as an interleaved transition system: every
compare-and-exchange of the scan loop is one atomic step on the shared
table, and calls from any number of threads interleave arbitrarily.
Each acquire call is one agent: it starts, performs one CAS per visited
slot, and either ends up holding a claimed cell (until released) or
fails after `len` attempts. -/

/-- The execution state of one `get_debt` call (and of the later
release of its claimed cell). -/
inductive CallState where
  | ready (ptr : Nat) (offset : Nat)
  | scanning (ptr : Nat) (offset : Nat) (i : Nat)
  | holding (idx : Nat)
  | failed
  | released
deriving Repr, DecidableEq

/-- Global state of the interleaved model: the shared slot table and
the state of every call. -/
structure Sys where
  table : List Nat
  calls : Nat → CallState

/-- Pointwise update of the call map. -/
def updCall (f : Nat → CallState) (c : Nat) (st : CallState) : Nat → CallState :=
  fun x => if x = c then st else f x

/-- Initial state: all slots free, no call started; each call's address
obeys the caller contract (it is not the sentinel). -/
def Init (s : Sys) : Prop :=
  s.table = List.replicate 8 Debt.NONE ∧
  ∀ c, ∃ ptr offset, s.calls c = CallState.ready ptr offset ∧ ptr ≠ Debt.NONE

/-- One atomic step of the interleaved system.  `casOk` and `casFail`
are the two outcomes of the single `compare_exchange(Debt::NONE, ptr)`
performed on slot `(i + offset) % len` during iteration `i` of the
scan loop of `get_debt`; `release` is the single atomic store resetting
a held slot. -/
inductive Step : Sys → Sys → Prop
  | start (s : Sys) (c ptr offset : Nat) :
      s.calls c = CallState.ready ptr offset →
      Step s ⟨s.table, updCall s.calls c (CallState.scanning ptr offset 0)⟩
  | casOk (s : Sys) (c ptr offset i : Nat) :
      s.calls c = CallState.scanning ptr offset i →
      i < s.table.length →
      s.table.getD ((i + offset) % s.table.length) 0 = Debt.NONE →
      Step s ⟨s.table.set ((i + offset) % s.table.length) ptr,
        updCall s.calls c (CallState.holding ((i + offset) % s.table.length))⟩
  | casFail (s : Sys) (c ptr offset i : Nat) :
      s.calls c = CallState.scanning ptr offset i →
      i < s.table.length →
      s.table.getD ((i + offset) % s.table.length) 0 ≠ Debt.NONE →
      Step s ⟨s.table, updCall s.calls c (CallState.scanning ptr offset (i + 1))⟩
  | exhaust (s : Sys) (c ptr offset : Nat) :
      s.calls c = CallState.scanning ptr offset s.table.length →
      Step s ⟨s.table, updCall s.calls c CallState.failed⟩
  | release (s : Sys) (c idx : Nat) :
      s.calls c = CallState.holding idx →
      Step s ⟨s.table.set idx Debt.NONE, updCall s.calls c CallState.released⟩

/-- Reachability from an initial state by interleaved atomic steps. -/
inductive Reachable : Sys → Prop
  | init (s : Sys) : Init s → Reachable s
  | step (s s' : Sys) : Reachable s → Step s s' → Reachable s'

/-- The global invariant: the table keeps its size, pending calls carry
non-sentinel addresses, every held slot is in bounds and non-free, and
no slot is held by two calls. -/
def SysInv (s : Sys) : Prop :=
  s.table.length = 8 ∧
  (∀ c ptr offset, s.calls c = CallState.ready ptr offset → ptr ≠ Debt.NONE) ∧
  (∀ c ptr offset i, s.calls c = CallState.scanning ptr offset i → ptr ≠ Debt.NONE) ∧
  (∀ c idx, s.calls c = CallState.holding idx →
    idx < 8 ∧ s.table.getD idx 0 ≠ Debt.NONE) ∧
  (∀ c c' idx, s.calls c = CallState.holding idx →
    s.calls c' = CallState.holding idx → c = c')

theorem init_inv (s : Sys) (h : Init s) : SysInv s := by
  obtain ⟨htab, hcalls⟩ := h
  refine ⟨by rw [htab]; rfl, ?_, ?_, ?_, ?_⟩
  · intro c ptr offset hc
    obtain ⟨p, o, hr, hp⟩ := hcalls c
    rw [hr] at hc
    cases hc
    exact hp
  · intro c ptr offset i hc
    obtain ⟨p, o, hr, _⟩ := hcalls c
    rw [hr] at hc
    exact CallState.noConfusion hc
  · intro c idx hc
    obtain ⟨p, o, hr, _⟩ := hcalls c
    rw [hr] at hc
    exact CallState.noConfusion hc
  · intro c c' idx hc
    obtain ⟨p, o, hr, _⟩ := hcalls c
    rw [hr] at hc
    exact CallState.noConfusion hc

theorem updCall_eq (f : Nat → CallState) (c : Nat) (st : CallState) :
    updCall f c st c = st := by
  simp [updCall]

theorem updCall_ne (f : Nat → CallState) (c : Nat) (st : CallState) (x : Nat)
    (h : x ≠ c) : updCall f c st x = f x := by
  simp [updCall, h]

/-- Every atomic step preserves the global invariant: in particular a
successful compare-and-exchange can only claim a slot that was FREE at
that very step, so it can never create a second holder. -/
theorem step_inv (s s' : Sys) (hs : SysInv s) (hstep : Step s s') : SysInv s' := by
  obtain ⟨hlen, hready, hscan, hhold, huniq⟩ := hs
  cases hstep with
  | start c ptr offset hc =>
    refine ⟨hlen, ?_, ?_, ?_, ?_⟩
    · intro x p o hx
      dsimp only at hx
      by_cases hxc : x = c
      · rw [hxc, updCall_eq] at hx; exact CallState.noConfusion hx
      · rw [updCall_ne _ _ _ _ hxc] at hx; exact hready x p o hx
    · intro x p o i hx
      dsimp only at hx
      by_cases hxc : x = c
      · rw [hxc, updCall_eq] at hx
        cases hx
        exact hready c ptr offset hc
      · rw [updCall_ne _ _ _ _ hxc] at hx; exact hscan x p o i hx
    · intro x idx hx
      dsimp only at hx ⊢
      by_cases hxc : x = c
      · rw [hxc, updCall_eq] at hx; exact CallState.noConfusion hx
      · rw [updCall_ne _ _ _ _ hxc] at hx; exact hhold x idx hx
    · intro x y idx hx hy
      dsimp only at hx hy
      by_cases hxc : x = c
      · rw [hxc, updCall_eq] at hx; exact CallState.noConfusion hx
      · by_cases hyc : y = c
        · rw [hyc, updCall_eq] at hy; exact CallState.noConfusion hy
        · rw [updCall_ne _ _ _ _ hxc] at hx
          rw [updCall_ne _ _ _ _ hyc] at hy
          exact huniq x y idx hx hy
  | casOk c ptr offset i hc hi hfree =>
    have hptr : ptr ≠ Debt.NONE := hscan c ptr offset i hc
    have hjlt : (i + offset) % s.table.length < s.table.length :=
      Nat.mod_lt _ (by omega)
    refine ⟨by simpa using hlen, ?_, ?_, ?_, ?_⟩
    · intro x p o hx
      dsimp only at hx
      by_cases hxc : x = c
      · rw [hxc, updCall_eq] at hx; exact CallState.noConfusion hx
      · rw [updCall_ne _ _ _ _ hxc] at hx; exact hready x p o hx
    · intro x p o k hx
      dsimp only at hx
      by_cases hxc : x = c
      · rw [hxc, updCall_eq] at hx; exact CallState.noConfusion hx
      · rw [updCall_ne _ _ _ _ hxc] at hx; exact hscan x p o k hx
    · intro x idx hx
      dsimp only at hx ⊢
      by_cases hxc : x = c
      · rw [hxc, updCall_eq] at hx
        cases hx
        refine ⟨by omega, ?_⟩
        rw [getD_set_self _ _ _ hjlt]
        exact hptr
      · rw [updCall_ne _ _ _ _ hxc] at hx
        obtain ⟨hidx, hocc⟩ := hhold x idx hx
        have hne : idx ≠ (i + offset) % s.table.length := by
          intro heq
          rw [heq] at hocc
          exact hocc hfree
        refine ⟨hidx, ?_⟩
        rw [getD_set_ne _ _ _ _ hne]
        exact hocc
    · intro x y idx hx hy
      dsimp only at hx hy
      by_cases hxc : x = c
      · by_cases hyc : y = c
        · rw [hxc, hyc]
        · rw [hxc, updCall_eq] at hx
          rw [updCall_ne _ _ _ _ hyc] at hy
          cases hx
          obtain ⟨-, hocc⟩ := hhold y _ hy
          exact absurd hfree hocc
      · rw [updCall_ne _ _ _ _ hxc] at hx
        by_cases hyc : y = c
        · rw [hyc, updCall_eq] at hy
          cases hy
          obtain ⟨-, hocc⟩ := hhold x _ hx
          exact absurd hfree hocc
        · rw [updCall_ne _ _ _ _ hyc] at hy
          exact huniq x y idx hx hy
  | casFail c ptr offset i hc hi hocc =>
    refine ⟨hlen, ?_, ?_, ?_, ?_⟩
    · intro x p o hx
      dsimp only at hx
      by_cases hxc : x = c
      · rw [hxc, updCall_eq] at hx; exact CallState.noConfusion hx
      · rw [updCall_ne _ _ _ _ hxc] at hx; exact hready x p o hx
    · intro x p o k hx
      dsimp only at hx
      by_cases hxc : x = c
      · rw [hxc, updCall_eq] at hx
        cases hx
        exact hscan c ptr offset i hc
      · rw [updCall_ne _ _ _ _ hxc] at hx; exact hscan x p o k hx
    · intro x idx hx
      dsimp only at hx ⊢
      by_cases hxc : x = c
      · rw [hxc, updCall_eq] at hx; exact CallState.noConfusion hx
      · rw [updCall_ne _ _ _ _ hxc] at hx; exact hhold x idx hx
    · intro x y idx hx hy
      dsimp only at hx hy
      by_cases hxc : x = c
      · rw [hxc, updCall_eq] at hx; exact CallState.noConfusion hx
      · by_cases hyc : y = c
        · rw [hyc, updCall_eq] at hy; exact CallState.noConfusion hy
        · rw [updCall_ne _ _ _ _ hxc] at hx
          rw [updCall_ne _ _ _ _ hyc] at hy
          exact huniq x y idx hx hy
  | exhaust c ptr offset hc =>
    refine ⟨hlen, ?_, ?_, ?_, ?_⟩
    · intro x p o hx
      dsimp only at hx
      by_cases hxc : x = c
      · rw [hxc, updCall_eq] at hx; exact CallState.noConfusion hx
      · rw [updCall_ne _ _ _ _ hxc] at hx; exact hready x p o hx
    · intro x p o k hx
      dsimp only at hx
      by_cases hxc : x = c
      · rw [hxc, updCall_eq] at hx; exact CallState.noConfusion hx
      · rw [updCall_ne _ _ _ _ hxc] at hx; exact hscan x p o k hx
    · intro x idx hx
      dsimp only at hx ⊢
      by_cases hxc : x = c
      · rw [hxc, updCall_eq] at hx; exact CallState.noConfusion hx
      · rw [updCall_ne _ _ _ _ hxc] at hx; exact hhold x idx hx
    · intro x y idx hx hy
      dsimp only at hx hy
      by_cases hxc : x = c
      · rw [hxc, updCall_eq] at hx; exact CallState.noConfusion hx
      · by_cases hyc : y = c
        · rw [hyc, updCall_eq] at hy; exact CallState.noConfusion hy
        · rw [updCall_ne _ _ _ _ hxc] at hx
          rw [updCall_ne _ _ _ _ hyc] at hy
          exact huniq x y idx hx hy
  | release c idx0 hc =>
    refine ⟨by simpa using hlen, ?_, ?_, ?_, ?_⟩
    · intro x p o hx
      dsimp only at hx
      by_cases hxc : x = c
      · rw [hxc, updCall_eq] at hx; exact CallState.noConfusion hx
      · rw [updCall_ne _ _ _ _ hxc] at hx; exact hready x p o hx
    · intro x p o k hx
      dsimp only at hx
      by_cases hxc : x = c
      · rw [hxc, updCall_eq] at hx; exact CallState.noConfusion hx
      · rw [updCall_ne _ _ _ _ hxc] at hx; exact hscan x p o k hx
    · intro x idx hx
      dsimp only at hx ⊢
      by_cases hxc : x = c
      · rw [hxc, updCall_eq] at hx; exact CallState.noConfusion hx
      · rw [updCall_ne _ _ _ _ hxc] at hx
        obtain ⟨hidx, hocc⟩ := hhold x idx hx
        have hne : idx ≠ idx0 := by
          intro heq
          exact hxc (huniq x c idx0 (heq ▸ hx) hc)
        refine ⟨hidx, ?_⟩
        rw [getD_set_ne _ _ _ _ hne]
        exact hocc
    · intro x y idx hx hy
      dsimp only at hx hy
      by_cases hxc : x = c
      · rw [hxc, updCall_eq] at hx; exact CallState.noConfusion hx
      · by_cases hyc : y = c
        · rw [hyc, updCall_eq] at hy; exact CallState.noConfusion hy
        · rw [updCall_ne _ _ _ _ hxc] at hx
          rw [updCall_ne _ _ _ _ hyc] at hy
          exact huniq x y idx hx hy

/-- Every reachable state satisfies the invariant. -/
theorem reachable_inv (s : Sys) (h : Reachable s) : SysInv s := by
  induction h with
  | init s hinit => exact init_inv s hinit
  | step s s' _ hstep ih => exact step_inv s s' ih hstep

/-- C1: mutual exclusion.  For any set of concurrently interleaved
`get_debt` calls, no two calls that both reported success hold the same
cell while both remain unreleased; each cell has at most one concurrent
owner, enforced solely by the per-slot compare-and-exchange step of the
model (there is no lock anywhere in the transition system). -/
theorem get_debt_mutual_exclusion (s : Sys) (c1 c2 idx : Nat)
    (hreach : Reachable s)
    (h1 : s.calls c1 = CallState.holding idx)
    (h2 : s.calls c2 = CallState.holding idx) : c1 = c2 :=
  (reachable_inv s hreach).2.2.2.2 c1 c2 idx h1 h2

def mutexSys0 : Sys := ⟨List.replicate 8 Debt.NONE, fun _ => CallState.ready 1 0⟩

def mutexSys1 : Sys :=
  ⟨mutexSys0.table, updCall mutexSys0.calls 0 (CallState.scanning 1 0 0)⟩

def mutexSys2 : Sys :=
  ⟨mutexSys1.table.set ((0 + 0) % mutexSys1.table.length) 1,
    updCall mutexSys1.calls 0 (CallState.holding ((0 + 0) % mutexSys1.table.length))⟩

theorem get_debt_mutual_exclusion_witness : (0 : Nat) = 0 :=
  get_debt_mutual_exclusion mutexSys2 0 0 0
    (Reachable.step mutexSys1 mutexSys2
      (Reachable.step mutexSys0 mutexSys1
        (Reachable.init mutexSys0 ⟨rfl, fun c => ⟨1, 0, rfl, by decide⟩⟩)
        (Step.start mutexSys0 0 1 0 rfl))
      (Step.casOk mutexSys1 0 1 0 0 rfl (by decide) (by decide)))
    rfl rfl
